import Mathlib

set_option autoImplicit false

/-!
Shallow embedding of `simupy/matrices.py` and proofs about its specification.

Matrices (sympy `Matrix` values) are modelled as rectangular lists of rows.
Scalar entries of symbolic matrices are modelled by `PExpr`: either a sympy
symbol, identified (as in sympy) by its name string, or a number.  Fallible
Python code is modelled with `Except`, whose error values name the Python
exception that the corresponding operation raises.
-/

deriving instance DecidableEq for Except

namespace Simupy

/-- Matrix model: a list of rows.  sympy matrices are always rectangular;
rectangularity is carried as a hypothesis (`Rect`) where a proof needs it. -/
abbrev Mat (α : Type) : Type := List (List α)

/-- Column count of a matrix (length of its first row; 0 for no rows). -/
def mcols {α : Type} (m : Mat α) : Nat := (m.headD []).length

/-- Rectangularity: every row has the common column count. -/
def Rect {α : Type} (m : Mat α) : Prop := ∀ r ∈ m, r.length = mcols m

/-- Entry lookup `m[i, j]`; `none` models a Python `IndexError`. -/
def mget? {α : Type} (m : Mat α) (i j : Nat) : Option α :=
  match m[i]? with
  | some row => row[j]?
  | none => none

/-- Row-major list of cells with their indices: the visiting order of
`np.nditer(m, flags=[..., 'multi_index'])` (C order). -/
def cellsIdx {α : Type} (m : Mat α) : List (Nat × Nat × α) :=
  (m.enum.map (fun p => p.2.enum.map (fun q => (p.1, q.1, q.2)))).flatten

/-- Row-major flattening, the model of `sp.flatten(m.tolist())`. -/
def matFlatten {α : Type} (m : Mat α) : List α := m.flatten

/-- Two matrices have the same shape (same rows, pointwise same row lengths). -/
def sameShape {α β : Type} (A : Mat α) (B : Mat β) : Prop :=
  A.map List.length = B.map List.length

instance sameShapeDecidable {α β : Type} (A : Mat α) (B : Mat β) :
    Decidable (sameShape A B) :=
  inferInstanceAs (Decidable (A.map List.length = B.map List.length))

instance rectDecidable {α : Type} (m : Mat α) : Decidable (Rect m) :=
  inferInstanceAs (Decidable (∀ r ∈ m, r.length = mcols m))

/-- Python's `list.index`, returning `none` instead of raising `ValueError`
when the element is absent. -/
def listIndex {α : Type} [DecidableEq α] : List α → α → Option Nat
  | [], _ => none
  | x :: xs, a => if x = a then some 0 else (listIndex xs a).map (· + 1)

/-- Error-propagating map over a list, the model of a Python loop or
comprehension whose body may raise: the first raise aborts the traversal. -/
def rowMapE {α β ε : Type} (f : α → Except ε β) : List α → Except ε (List β)
  | [] => .ok []
  | a :: as =>
    match f a with
    | .error e => .error e
    | .ok b =>
      match rowMapE f as with
      | .error e => .error e
      | .ok bs => .ok (b :: bs)

/-- Scalar entry of a symbolic matrix: a sympy symbol (identified by its name,
as sympy symbols are) or a number.  A structural zero is `num 0`. -/
inductive PExpr : Type where
  | sym (name : String)
  | num (val : Int)
deriving DecidableEq, Repr

/-- Decimal rendering of a natural number: the embedding of Python's
string-format `'{}'.format(k)` used to build symbol names. -/
def natDecimal (n : Nat) : String :=
  if n = 0 then "0" else String.mk (((Nat.digits 10 n).reverse).map Nat.digitChar)

/-- Symbol name `base_{r}{c}` built by `name+'_{}{}'.format(r, c)`. -/
def symName (base : String) (r c : Nat) : String :=
  base ++ "_" ++ natDecimal r ++ natDecimal c

/-- Error raised by `construct_explicit_matrix` (a Python `ValueError`; the
spec calls it InvalidShape). -/
inductive BuildErr : Type where
  | invalidShape
deriving DecidableEq, Repr

/-- Embedding of `construct_explicit_matrix(name, n, m, symmetric, diagonal)`.
The `dynamic` flag only switches the symbol constructor (plain symbols versus
`dynamicsymbols`); either way symbol identity is the name string, so the flag
is dropped from the model.  The truthy `diagonal` argument is modelled as a
`Bool`.  The source's symmetric branch first builds the full matrix of fresh
symbols and then overwrites each below-diagonal entry `(r, c)`, `c < r`, with
the above-diagonal entry `(c, r)`; the embedding computes the overwritten
matrix directly. -/
def construct_explicit_matrix (name : String) (n m : Nat)
    (symmetric : Bool) (diagonal : Bool) : Except BuildErr (Mat PExpr) :=
  if n ≠ m ∧ (diagonal = true ∨ symmetric = true) then .error .invalidShape
  else if diagonal then
    .ok ((List.range m).map (fun i => (List.range m).map (fun j =>
      if i = j then PExpr.sym (symName name (i + 1) (i + 1)) else PExpr.num 0)))
  else if symmetric then
    .ok ((List.range n).map (fun r => (List.range m).map (fun c =>
      if c < r then PExpr.sym (symName name (c + 1) (r + 1))
      else PExpr.sym (symName name (r + 1) (c + 1)))))
  else
    .ok ((List.range n).map (fun r => (List.range m).map (fun c =>
      PExpr.sym (symName name (r + 1) (c + 1)))))

/-- Python exceptions that `matrix_subs` can raise, by kind. -/
inductive SubsErr : Type where
  | keyError
  | attributeError
  | typeError
  | indexError
deriving DecidableEq, Repr

/-- The Python values that can reach `matrix_subs` through `*subs`: a sympy
matrix, a 2-tuple, or a dict of matrix pairs (its keys immutable matrices). -/
inductive PyObj : Type where
  | mat (M : Mat PExpr)
  | tup (a b : PyObj)
  | dict (d : List (Mat PExpr × Mat PExpr))
deriving DecidableEq

/-- The check `isinstance(subs[0], (list, tuple, dict))` (a bare matrix is
none of those). -/
def isListTupleDict : PyObj → Bool
  | .mat _ => false
  | .tup _ _ => true
  | .dict _ => true

/-- Evaluation of `sub[1][i, j]`: succeeds only when `sub[1]` is a matrix and
`(i, j)` is in range. -/
def tupleIndex (b : PyObj) (i j : Nat) : Except SubsErr PExpr :=
  match b with
  | .mat B =>
    match mget? B i j with
    | some v => .ok v
    | none => .error .indexError
  | _ => .error .typeError

/-- Cells of `A` at which the symbolic entry is not structurally zero, in the
iteration order `for i in range(rows) for j in range(cols)`. -/
def nonzeroCells (A : Mat PExpr) : List (Nat × Nat × PExpr) :=
  (cellsIdx A).filter (fun c => decide (c.2.2 ≠ PExpr.num 0))

/-- Processing of one `sub` inside the tuple branch of `matrix_subs`.  The
generator evaluates `sub[0]` and its `.shape` first: on a dict that indexing
raises `KeyError` (0 is not among its matrix keys), and on a bare matrix
`sub[0]` is a scalar entry, which has no `.shape` (`AttributeError`).  Only a
2-tuple whose first component is a matrix proceeds; the zero test `sub[0][i, j]
!= 0` guards the evaluation of `sub[1][i, j]`. -/
def flattenSub : PyObj → Except SubsErr (List (PExpr × PExpr))
  | .dict _ => .error .keyError
  | .mat _ => .error .attributeError
  | .tup a b =>
    match a with
    | .mat A =>
      rowMapE (fun c =>
        match tupleIndex b c.1 c.2.1 with
        | .ok v => .ok (c.2.2, v)
        | .error e => .error e) (nonzeroCells A)
    | _ => .error .attributeError

/-- Embedding of `matrix_subs(*subs)`.  `subs` is the tuple of positional
arguments; when it has exactly two elements and the first is not a
list/tuple/dict the pair is repacked as a single 2-tuple.  After that `subs`
is always a list or tuple, so the `isinstance(subs, dict)` branch of the
source is unreachable and the tuple branch produces the flat tuple of
substitution pairs. -/
def matrix_subs (args : List PyObj) : Except SubsErr (List (PExpr × PExpr)) :=
  let subs : List PyObj :=
    match args with
    | [a, b] => if isListTupleDict a then [a, b] else [.tup a b]
    | l => l
  match rowMapE flattenSub subs with
  | .error e => .error e
  | .ok ls => .ok ls.flatten

/-- Sequential substitution of a list of (pattern, value) pairs into one
scalar expression: the semantics of sympy's `subs` with a list of pairs on an
atomic expression (each pair in turn replaces the current expression when it
matches exactly). -/
def applySubsExpr (l : List (PExpr × PExpr)) (e : PExpr) : PExpr :=
  match l with
  | [] => e
  | (p, v) :: rest => applySubsExpr rest (if e = p then v else e)

/-- Entrywise substitution into a matrix (sympy `Matrix.subs`). -/
def applySubsMat (l : List (PExpr × PExpr)) (A : Mat PExpr) : Mat PExpr :=
  A.map (fun row => row.map (applySubsExpr l))

/-- Python exceptions reachable from `block_matrix`: a shape mismatch raised
by the underlying join, or a `TypeError` from calling the two-parameter
methods `row_join`/`col_join` with the wrong number of arguments. -/
inductive JoinErr : Type where
  | shapeError
  | typeError
deriving DecidableEq, Repr

/-- Modelled from the spec: `sp.Matrix.row_join` is the symbolic engine's
horizontal concatenation, requiring equal row counts (its null-matrix special
cases are not needed by any claim and are omitted). -/
def row_join {α : Type} (A B : Mat α) : Except JoinErr (Mat α) :=
  if A.length = B.length then .ok (List.zipWith (fun r s => r ++ s) A B)
  else .error .shapeError

/-- Modelled from the spec: `sp.Matrix.col_join` is the symbolic engine's
vertical concatenation, requiring equal column counts. -/
def col_join {α : Type} (A B : Mat α) : Except JoinErr (Mat α) :=
  if mcols A = mcols B then .ok (A ++ B) else .error .shapeError

/-- The call `sp.Matrix.row_join(*mats)`: `row_join` is a two-parameter method
`(self, other)`, so any argument count other than two raises `TypeError`. -/
def row_join_va {α : Type} (mats : List (Mat α)) : Except JoinErr (Mat α) :=
  match mats with
  | [a, b] => row_join a b
  | _ => .error .typeError

/-- The call `sp.Matrix.col_join(*rows)`, likewise two-parameter. -/
def col_join_va {α : Type} (mats : List (Mat α)) : Except JoinErr (Mat α) :=
  match mats with
  | [a, b] => col_join a b
  | _ => .error .typeError

/-- Embedding of `block_matrix(blocks)`: each row of blocks is joined with
`sp.Matrix.row_join(*tuple(...))`, then the rows with
`sp.Matrix.col_join(*tuple(...))`; the inner tuple is forced first, so a
row-level error surfaces before the outer arity is checked. -/
def block_matrix {α : Type} (blocks : List (List (Mat α))) : Except JoinErr (Mat α) :=
  match rowMapE row_join_va blocks with
  | .error e => .error e
  | .ok rows => col_join_va rows

/-- The only exception the reconstruction loop itself raises: the
`ValueError` of `unraveled.index(...)` on a missing symbol (the spec's
LookupError, symbol-not-found). -/
inductive TrajErr : Type where
  | symbolNotFound
deriving DecidableEq, Repr

/-- Argument `t` of the returned callable: a single scalar time or a
sequence (list/tuple/array) of times. -/
inductive TimeArg : Type where
  | scalar (t : Int)
  | seq (ts : List Int)
deriving DecidableEq

/-- Interface of the interpolating callable returned by the external
collaborator `callable_from_trajectory`: applied to a scalar time it yields
one value per symbol column; applied to a sequence of times it yields, per
symbol column, one value per time. -/
structure VectorCallable : Type where
  atScalar : Int → List Int
  atSeq : List Int → List (List Int)

/-- Result of the reconstruction callable: a single p×q matrix
(`np.matlib.zeros` branch) or a k×p×q stacked array (`np.zeros` branch). -/
inductive MatResult : Type where
  | single (m : Mat Int)
  | stacked (a : List (Mat Int))
deriving DecidableEq

/-- The per-cell lookup `unraveled.index(raveled[i, j])`. -/
def lookupCol (unraveled : List PExpr) (s : PExpr) : Except TrajErr Nat :=
  match listIndex unraveled s with
  | some idx => .ok idx
  | none => .error .symbolNotFound

/-- Embedding of the closure `matrix_callable(t)` returned by
`matrix_callable_from_vector_trajectory`.  `as_array` holds exactly when `t`
is a sequence of length above one; then a k×p×q array is filled one
time-slice column per cell, otherwise a single matrix is filled (for a
length-one sequence the one per-time value of `vector_result[idx]` lands in
the scalar slot). -/
def matrix_callable (unraveled : List PExpr) (raveled : Mat PExpr)
    (vc : VectorCallable) (t : TimeArg) : Except TrajErr MatResult :=
  match t with
  | .seq ts =>
    if 1 < ts.length then
      match rowMapE (rowMapE (lookupCol unraveled)) raveled with
      | .error e => .error e
      | .ok idxs =>
        .ok (.stacked ((List.range ts.length).map (fun k =>
          idxs.map (fun row => row.map (fun idx =>
            ((vc.atSeq ts).getD idx []).getD k 0)))))
    else
      match rowMapE (rowMapE (fun s =>
          match lookupCol unraveled s with
          | .ok idx => .ok (((vc.atSeq ts).getD idx []).getD 0 0)
          | .error e => .error e)) raveled with
      | .error e => .error e
      | .ok m => .ok (.single m)
  | .scalar tval =>
    match rowMapE (rowMapE (fun s =>
        match lookupCol unraveled s with
        | .ok idx => .ok ((vc.atScalar tval).getD idx 0)
        | .error e => .error e)) raveled with
    | .error e => .error e
    | .ok m => .ok (.single m)

/-- Modelled from the spec: `callable_from_trajectory` (in `simupy.utils`,
not under src/) builds an interpolating callable over time indices `tt` and
samples `x`; at a sample time it returns that row of samples, and its
interpolation policy away from the samples is its own (modelled as a default
here, never relied upon). -/
def callable_from_trajectory (tt : List Int) (x : Mat Int) : VectorCallable where
  atScalar := fun t =>
    match listIndex tt t with
    | some i => x.getD i []
    | none => []
  atSeq := fun ts =>
    (List.range (mcols x)).map (fun c =>
      ts.map (fun t =>
        match listIndex tt t with
        | some i => (x.getD i []).getD c 0
        | none => 0))

/-- Embedding of `matrix_callable_from_vector_trajectory(tt, x, unraveled,
raveled)`: builds the interpolating vector callable and closes over the
unraveled order and the raveled layout.  (When `unraveled` is passed as a
sympy matrix the source first flattens it row-major; the embedding takes the
flat order directly.) -/
def matrix_callable_from_vector_trajectory (tt : List Int) (x : Mat Int)
    (unraveled : List PExpr) (raveled : Mat PExpr) :
    TimeArg → Except TrajErr MatResult :=
  matrix_callable unraveled raveled (callable_from_trajectory tt x)

/-- Python exceptions reachable from the conversion loop of
`system_from_matrix_DE`: `IndexError` from `mat_var[i, j]`, or the
`ValueError` of `vec_var.index(...)` on a missing symbol. -/
inductive ConvErr : Type where
  | indexOutOfRange
  | symbolNotFound
deriving DecidableEq, Repr

/-- The loop of `system_from_matrix_DE`: iterate the cells of `mat_DE` in
nditer order, look up `mat_var[i, j]` and its flat index in `vec_var`, and
set that position of the derivative vector. -/
def convertLoop (vec_var : List PExpr) (mat_var : Mat PExpr) :
    List (Nat × Nat × PExpr) → List PExpr → Except ConvErr (List PExpr)
  | [], acc => .ok acc
  | (i, j, de) :: rest, acc =>
    match mget? mat_var i j with
    | none => .error .indexOutOfRange
    | some v =>
      match listIndex vec_var v with
      | none => .error .symbolNotFound
      | some idx => convertLoop vec_var mat_var rest (acc.set idx de)

/-- Embedding of `system_from_matrix_DE(mat_DE, mat_var, ...)`.  The source
deduplicates with `list(set(sp.flatten(mat_var.tolist())))`, whose iteration
order Python leaves unspecified; the embedding takes the chosen deduplicated
order `vec_var` as a parameter, and the theorems quantify over every order
with the set semantics (`IsDedupOf`).  `vec_DE = sp.Matrix.zeros(len, 1)` is
the vector of structural zeros that the loop then fills; the resulting system
object is represented by its (derivative vector, state vector) payload, the
part this function is responsible for. -/
def system_from_matrix_DE (vec_var : List PExpr) (mat_DE mat_var : Mat PExpr) :
    Except ConvErr (List PExpr × List PExpr) :=
  match convertLoop vec_var mat_var (cellsIdx mat_DE)
      (List.replicate vec_var.length (PExpr.num 0)) with
  | .error e => .error e
  | .ok vecDE => .ok (vecDE, vec_var)

/-- A list is a possible value of `list(set(sp.flatten(mat_var.tolist())))`:
no duplicates, and the same members as the flattened matrix. -/
def IsDedupOf (vec_var : List PExpr) (mat_var : Mat PExpr) : Prop :=
  vec_var.Nodup ∧ ∀ s : PExpr, s ∈ vec_var ↔ s ∈ matFlatten mat_var

/-! Lemmas about `listIndex`. -/

theorem listIndex_lt_length {α : Type} [DecidableEq α] :
    ∀ {l : List α} {a : α} {i : Nat}, listIndex l a = some i → i < l.length := by
  intro l
  induction l with
  | nil => intro a i h; simp [listIndex] at h
  | cons x xs ih =>
    intro a i h
    by_cases hx : x = a
    · simp only [listIndex, if_pos hx, Option.some.injEq] at h
      subst h
      simp
    · simp only [listIndex, if_neg hx, Option.map_eq_some'] at h
      obtain ⟨i0, h0, rfl⟩ := h
      have := ih h0
      simp only [List.length_cons]
      omega

theorem listIndex_getElem? {α : Type} [DecidableEq α] :
    ∀ {l : List α} {a : α} {i : Nat}, listIndex l a = some i → l[i]? = some a := by
  intro l
  induction l with
  | nil => intro a i h; simp [listIndex] at h
  | cons x xs ih =>
    intro a i h
    by_cases hx : x = a
    · simp only [listIndex, if_pos hx, Option.some.injEq] at h
      subst h
      simp [List.getElem?_cons_zero, hx]
    · simp only [listIndex, if_neg hx, Option.map_eq_some'] at h
      obtain ⟨i0, h0, rfl⟩ := h
      simpa using ih h0

theorem listIndex_eq_none_iff {α : Type} [DecidableEq α] :
    ∀ {l : List α} {a : α}, listIndex l a = none ↔ a ∉ l := by
  intro l
  induction l with
  | nil => intro a; simp [listIndex]
  | cons x xs ih =>
    intro a
    by_cases hx : x = a
    · simp [listIndex, hx]
    · simp [listIndex, if_neg hx, Option.map_eq_none', ih, hx]
      intro h
      exact fun hax => hx hax.symm

theorem listIndex_isSome_of_mem {α : Type} [DecidableEq α] {l : List α} {a : α}
    (h : a ∈ l) : ∃ i, listIndex l a = some i := by
  cases hli : listIndex l a with
  | none => exact absurd h (listIndex_eq_none_iff.mp hli)
  | some i => exact ⟨i, rfl⟩

/-! Lemmas about `rowMapE`. -/

theorem rowMapE_ok_length {α β ε : Type} {f : α → Except ε β} :
    ∀ {l : List α} {r : List β}, rowMapE f l = .ok r → r.length = l.length := by
  intro l
  induction l with
  | nil => intro r h; simp [rowMapE] at h; subst h; rfl
  | cons a as ih =>
    intro r h
    simp only [rowMapE] at h
    cases hfa : f a with
    | error e => rw [hfa] at h; exact absurd h (by simp)
    | ok b =>
      rw [hfa] at h
      cases hrec : rowMapE f as with
      | error e => rw [hrec] at h; exact absurd h (by simp)
      | ok bs =>
        rw [hrec] at h
        simp only [Except.ok.injEq] at h
        subst h
        simp [ih hrec]

theorem rowMapE_ok_getElem? {α β ε : Type} {f : α → Except ε β} :
    ∀ {l : List α} {r : List β}, rowMapE f l = .ok r →
      ∀ {i : Nat} {a : α}, l[i]? = some a → ∃ b, f a = .ok b ∧ r[i]? = some b := by
  intro l
  induction l with
  | nil => intro r _ i a ha; simp at ha
  | cons x xs ih =>
    intro r h i a ha
    simp only [rowMapE] at h
    cases hfx : f x with
    | error e => rw [hfx] at h; exact absurd h (by simp)
    | ok b =>
      rw [hfx] at h
      cases hrec : rowMapE f xs with
      | error e => rw [hrec] at h; exact absurd h (by simp)
      | ok bs =>
        rw [hrec] at h
        simp only [Except.ok.injEq] at h
        subst h
        cases i with
        | zero =>
          simp only [List.getElem?_cons_zero, Option.some.injEq] at ha
          subst ha
          exact ⟨b, hfx, by simp [List.getElem?_cons_zero]⟩
        | succ i0 =>
          simp only [List.getElem?_cons_succ] at ha ⊢
          exact ih hrec ha

theorem rowMapE_ok_of_forall {α β ε : Type} {f : α → Except ε β} :
    ∀ {l : List α}, (∀ a ∈ l, ∃ b, f a = .ok b) → ∃ r, rowMapE f l = .ok r := by
  intro l
  induction l with
  | nil => intro _; exact ⟨[], rfl⟩
  | cons x xs ih =>
    intro h
    obtain ⟨b, hb⟩ := h x (List.mem_cons_self x xs)
    obtain ⟨bs, hbs⟩ := ih (fun a ha => h a (List.mem_cons_of_mem x ha))
    refine ⟨b :: bs, ?_⟩
    simp [rowMapE, hb, hbs]

theorem rowMapE_error_of_mem {α β ε : Type} {f : α → Except ε β} :
    ∀ {l : List α} {a : α} {e : ε}, a ∈ l → f a = .error e →
      ∃ e2, rowMapE f l = .error e2 := by
  intro l
  induction l with
  | nil => intro a e ha _; simp at ha
  | cons x xs ih =>
    intro a e ha hfa
    rcases List.mem_cons.mp ha with rfl | hmem
    · exact ⟨e, by simp [rowMapE, hfa]⟩
    · cases hfx : f x with
      | error e2 => exact ⟨e2, by simp [rowMapE, hfx]⟩
      | ok b =>
        obtain ⟨e2, he2⟩ := ih hmem hfa
        exact ⟨e2, by simp [rowMapE, hfx, he2]⟩

theorem rowMapE_mem_of_ok {α β ε : Type} {f : α → Except ε β} :
    ∀ {l : List α} {r : List β}, rowMapE f l = .ok r →
      ∀ {b : β}, b ∈ r → ∃ a ∈ l, f a = .ok b := by
  intro l
  induction l with
  | nil => intro r h b hb; simp [rowMapE] at h; subst h; simp at hb
  | cons x xs ih =>
    intro r h b hb
    simp only [rowMapE] at h
    cases hfx : f x with
    | error e => rw [hfx] at h; exact absurd h (by simp)
    | ok b0 =>
      rw [hfx] at h
      cases hrec : rowMapE f xs with
      | error e => rw [hrec] at h; exact absurd h (by simp)
      | ok bs =>
        rw [hrec] at h
        simp only [Except.ok.injEq] at h
        subst h
        rcases List.mem_cons.mp hb with rfl | hmem
        · exact ⟨x, List.mem_cons_self x xs, hfx⟩
        · obtain ⟨a, ha, hfa⟩ := ih hrec hmem
          exact ⟨a, List.mem_cons_of_mem x ha, hfa⟩

/-! Lemmas about `mget?`, `cellsIdx`, `matFlatten`, `sameShape`. -/

theorem mem_cellsIdx_iff {α : Type} {m : Mat α} {i j : Nat} {a : α} :
    (i, j, a) ∈ cellsIdx m ↔ mget? m i j = some a := by
  constructor
  · intro h
    simp only [cellsIdx, List.mem_flatten, List.mem_map] at h
    obtain ⟨l, ⟨p, hp, rfl⟩, hmem⟩ := h
    simp only [List.mem_map] at hmem
    obtain ⟨q, hq, hpq⟩ := hmem
    obtain ⟨hpi, hqj, hqa⟩ : p.1 = i ∧ q.1 = j ∧ q.2 = a := by
      refine ⟨congrArg (fun t => t.1) hpq, ?_, ?_⟩
      · exact congrArg (fun t => t.2.1) hpq
      · exact congrArg (fun t => t.2.2) hpq
    have hrow : m[p.1]? = some p.2 := List.mem_enum_iff_getElem?.mp hp
    have hcell : p.2[q.1]? = some q.2 := List.mem_enum_iff_getElem?.mp hq
    subst hpi hqj hqa
    simp [mget?, hrow, hcell]
  · intro h
    simp only [mget?] at h
    cases hrow : m[i]? with
    | none => rw [hrow] at h; exact absurd h (by simp)
    | some row =>
      rw [hrow] at h
      simp only [cellsIdx, List.mem_flatten, List.mem_map]
      refine ⟨(row.enum).map (fun q => (i, q.1, q.2)), ⟨(i, row), ?_, rfl⟩, ?_⟩
      · exact List.mem_enum_iff_getElem?.mpr hrow
      · simp only [List.mem_map]
        exact ⟨(j, a), List.mem_enum_iff_getElem?.mpr h, rfl⟩

theorem mget?_mem_matFlatten {α : Type} :
    ∀ {m : Mat α} {i j : Nat} {v : α}, mget? m i j = some v → v ∈ matFlatten m := by
  intro m
  induction m with
  | nil => intro i j v h; simp [mget?] at h
  | cons row rows ih =>
    intro i j v h
    cases i with
    | zero =>
      simp only [mget?, List.getElem?_cons_zero] at h
      simp only [matFlatten, List.flatten_cons, List.mem_append]
      exact Or.inl (List.getElem?_mem h)
    | succ i0 =>
      simp only [mget?, List.getElem?_cons_succ] at h
      simp only [matFlatten, List.flatten_cons, List.mem_append]
      exact Or.inr (ih h)

theorem nodup_getElem?_inj {α : Type} :
    ∀ {l : List α}, l.Nodup → ∀ {i j : Nat} {a : α},
      l[i]? = some a → l[j]? = some a → i = j := by
  intro l
  induction l with
  | nil => intro _ i j a hi; simp at hi
  | cons x xs ih =>
    intro hnd i j a hi hj
    have hx_not_mem : x ∉ xs := (List.nodup_cons.mp hnd).1
    have hnd2 : xs.Nodup := (List.nodup_cons.mp hnd).2
    cases i with
    | zero =>
      cases j with
      | zero => rfl
      | succ j0 =>
        simp only [List.getElem?_cons_zero, Option.some.injEq] at hi
        simp only [List.getElem?_cons_succ] at hj
        subst hi
        exact absurd (List.getElem?_mem hj) hx_not_mem
    | succ i0 =>
      cases j with
      | zero =>
        simp only [List.getElem?_cons_zero, Option.some.injEq] at hj
        simp only [List.getElem?_cons_succ] at hi
        subst hj
        exact absurd (List.getElem?_mem hi) hx_not_mem
      | succ j0 =>
        simp only [List.getElem?_cons_succ] at hi hj
        exact congrArg Nat.succ (ih hnd2 hi hj)

theorem mget?_inj_of_flatten_nodup {α : Type} :
    ∀ {m : Mat α}, (matFlatten m).Nodup →
      ∀ {i j i2 j2 : Nat} {v : α}, mget? m i j = some v → mget? m i2 j2 = some v →
        i = i2 ∧ j = j2 := by
  intro m
  induction m with
  | nil => intro _ i j i2 j2 v h; simp [mget?] at h
  | cons row rows ih =>
    intro hnd i j i2 j2 v h h2
    have hparts := List.nodup_append.mp (by simpa [matFlatten] using hnd)
    obtain ⟨hrow_nd, hrest_nd, hdisj⟩ := hparts
    cases i with
    | zero =>
      cases i2 with
      | zero =>
        simp only [mget?, List.getElem?_cons_zero] at h h2
        exact ⟨rfl, nodup_getElem?_inj hrow_nd h h2⟩
      | succ i3 =>
        simp only [mget?, List.getElem?_cons_zero, List.getElem?_cons_succ] at h h2
        exact absurd (mget?_mem_matFlatten h2) (hdisj (List.getElem?_mem h))
    | succ i3 =>
      cases i2 with
      | zero =>
        simp only [mget?, List.getElem?_cons_zero, List.getElem?_cons_succ] at h h2
        exact absurd (mget?_mem_matFlatten h) (hdisj (List.getElem?_mem h2))
      | succ i4 =>
        simp only [mget?, List.getElem?_cons_succ] at h h2
        obtain ⟨hi, hj⟩ := ih hrest_nd h h2
        exact ⟨congrArg Nat.succ hi, hj⟩

theorem sameShape_mget? {α β : Type} {A : Mat α} {B : Mat β} (h : sameShape A B)
    {i j : Nat} {a : α} (ha : mget? A i j = some a) : ∃ b, mget? B i j = some b := by
  simp only [mget?] at ha
  cases hrowA : A[i]? with
  | none => rw [hrowA] at ha; exact absurd ha (by simp)
  | some rowA =>
    rw [hrowA] at ha
    have ha2 : rowA[j]? = some a := ha
    have hlen : (A.map List.length)[i]? = (B.map List.length)[i]? := by rw [h]
    rw [List.getElem?_map, List.getElem?_map, hrowA] at hlen
    cases hrowB : B[i]? with
    | none => rw [hrowB] at hlen; exact absurd hlen (by simp)
    | some rowB =>
      rw [hrowB] at hlen
      simp only [Option.map_some', Option.some.injEq] at hlen
      have hj : j < rowA.length := by
        by_contra hge
        rw [List.getElem?_eq_none (Nat.le_of_not_lt hge)] at ha2
        exact absurd ha2 (by simp)
      have hj2 : j < rowB.length := by omega
      cases hcell : rowB[j]? with
      | none => exact absurd (List.getElem?_eq_none_iff.mp hcell) (by omega)
      | some b => exact ⟨b, by simp [mget?, hrowB, hcell]⟩

/-! Lemmas about the conversion loop of `system_from_matrix_DE`. -/

theorem convertLoop_nil {vv : List PExpr} {mv : Mat PExpr} {acc : List PExpr} :
    convertLoop vv mv [] acc = .ok acc := rfl

theorem convertLoop_cons {vv : List PExpr} {mv : Mat PExpr} {acc : List PExpr}
    {i j : Nat} {de : PExpr} {rest : List (Nat × Nat × PExpr)} :
    convertLoop vv mv ((i, j, de) :: rest) acc =
      match mget? mv i j with
      | none => .error .indexOutOfRange
      | some v =>
        match listIndex vv v with
        | none => .error .symbolNotFound
        | some idx => convertLoop vv mv rest (acc.set idx de) := rfl

theorem convertLoop_cons_none {vv : List PExpr} {mv : Mat PExpr} {acc : List PExpr}
    {i j : Nat} {de : PExpr} {rest : List (Nat × Nat × PExpr)}
    (hmv : mget? mv i j = none) :
    convertLoop vv mv ((i, j, de) :: rest) acc = .error .indexOutOfRange := by
  simp [convertLoop_cons, hmv]

theorem convertLoop_cons_notfound {vv : List PExpr} {mv : Mat PExpr} {acc : List PExpr}
    {i j : Nat} {de v : PExpr} {rest : List (Nat × Nat × PExpr)}
    (hmv : mget? mv i j = some v) (hli : listIndex vv v = none) :
    convertLoop vv mv ((i, j, de) :: rest) acc = .error .symbolNotFound := by
  simp [convertLoop_cons, hmv, hli]

theorem convertLoop_cons_step {vv : List PExpr} {mv : Mat PExpr} {acc : List PExpr}
    {i j : Nat} {de v : PExpr} {idx : Nat} {rest : List (Nat × Nat × PExpr)}
    (hmv : mget? mv i j = some v) (hli : listIndex vv v = some idx) :
    convertLoop vv mv ((i, j, de) :: rest) acc =
      convertLoop vv mv rest (acc.set idx de) := by
  simp [convertLoop_cons, hmv, hli]

theorem convertLoop_ok_length {vv : List PExpr} {mv : Mat PExpr} :
    ∀ {cells : List (Nat × Nat × PExpr)} {acc res : List PExpr},
      convertLoop vv mv cells acc = .ok res → res.length = acc.length := by
  intro cells
  induction cells with
  | nil =>
    intro acc res h
    rw [convertLoop_nil] at h
    cases h
    rfl
  | cons c rest ih =>
    obtain ⟨i, j, de⟩ := c
    intro acc res h
    cases hmv : mget? mv i j with
    | none => rw [convertLoop_cons_none hmv] at h; exact absurd h (by simp)
    | some v =>
      cases hli : listIndex vv v with
      | none => rw [convertLoop_cons_notfound hmv hli] at h; exact absurd h (by simp)
      | some idx =>
        rw [convertLoop_cons_step hmv hli] at h
        rw [ih h]
        exact List.length_set acc idx de

theorem convertLoop_ok_of_forall {vv : List PExpr} {mv : Mat PExpr} :
    ∀ {cells : List (Nat × Nat × PExpr)},
      (∀ c ∈ cells, ∃ v idx, mget? mv c.1 c.2.1 = some v ∧ listIndex vv v = some idx) →
      ∀ (acc : List PExpr), ∃ res, convertLoop vv mv cells acc = .ok res := by
  intro cells
  induction cells with
  | nil => intro _ acc; exact ⟨acc, rfl⟩
  | cons c rest ih =>
    obtain ⟨i, j, de⟩ := c
    intro h acc
    obtain ⟨v, idx, hv, hidx⟩ := h (i, j, de) (List.mem_cons_self _ _)
    obtain ⟨res, hres⟩ := ih (fun c hc => h c (List.mem_cons_of_mem _ hc)) (acc.set idx de)
    refine ⟨res, ?_⟩
    rw [convertLoop_cons_step hv hidx]
    exact hres

theorem convertLoop_keeps_value {vv : List PExpr} {mv : Mat PExpr} {v de : PExpr} {idx : Nat}
    (hvidx : listIndex vv v = some idx) :
    ∀ {cells : List (Nat × Nat × PExpr)} {acc res : List PExpr},
      (∀ c ∈ cells, mget? mv c.1 c.2.1 = some v → c.2.2 = de) →
      acc[idx]? = some de →
      convertLoop vv mv cells acc = .ok res →
      res[idx]? = some de := by
  intro cells
  induction cells with
  | nil =>
    intro acc res _ hacc h
    rw [convertLoop_nil] at h
    cases h
    exact hacc
  | cons c rest ih =>
    obtain ⟨i, j, de0⟩ := c
    intro acc res hcons hacc h
    cases hmv : mget? mv i j with
    | none => rw [convertLoop_cons_none hmv] at h; exact absurd h (by simp)
    | some v0 =>
      cases hli : listIndex vv v0 with
      | none => rw [convertLoop_cons_notfound hmv hli] at h; exact absurd h (by simp)
      | some idx0 =>
        rw [convertLoop_cons_step hmv hli] at h
        have h2 : convertLoop vv mv rest (acc.set idx0 de0) = .ok res := h
        by_cases hidx : idx0 = idx
        · subst hidx
          have hv0 : v0 = v := by
            have e1 := listIndex_getElem? hli
            have e2 := listIndex_getElem? hvidx
            rw [e1] at e2
            exact (Option.some.injEq _ _).mp e2
          subst hv0
          have hde : de0 = de := hcons (i, j, de0) (List.mem_cons_self _ _) hmv
          subst hde
          refine ih (fun c hc => hcons c (List.mem_cons_of_mem _ hc)) ?_ h2
          have hlt : idx0 < acc.length := by
            have := List.getElem?_eq_some_iff.mp hacc
            exact this.1
          simp [List.getElem?_set_self (by simpa using hlt)]
        · refine ih (fun c hc => hcons c (List.mem_cons_of_mem _ hc)) ?_ h2
          rw [List.getElem?_set_ne (by omega)]
          exact hacc

theorem convertLoop_writes_value {vv : List PExpr} {mv : Mat PExpr} {v de : PExpr} {idx : Nat}
    (hvidx : listIndex vv v = some idx) :
    ∀ {cells : List (Nat × Nat × PExpr)} {acc res : List PExpr},
      (∃ c ∈ cells, mget? mv c.1 c.2.1 = some v) →
      (∀ c ∈ cells, mget? mv c.1 c.2.1 = some v → c.2.2 = de) →
      idx < acc.length →
      convertLoop vv mv cells acc = .ok res →
      res[idx]? = some de := by
  intro cells
  induction cells with
  | nil =>
    intro acc res hex _ _ _
    obtain ⟨c, hc, _⟩ := hex
    simp at hc
  | cons c rest ih =>
    obtain ⟨i, j, de0⟩ := c
    intro acc res hex hcons hlt h
    cases hmv : mget? mv i j with
    | none => rw [convertLoop_cons_none hmv] at h; exact absurd h (by simp)
    | some v0 =>
      cases hli : listIndex vv v0 with
      | none => rw [convertLoop_cons_notfound hmv hli] at h; exact absurd h (by simp)
      | some idx0 =>
        rw [convertLoop_cons_step hmv hli] at h
        have h2 : convertLoop vv mv rest (acc.set idx0 de0) = .ok res := h
        by_cases hv0 : v0 = v
        · subst hv0
          have hidx0 : idx0 = idx := by rw [hvidx] at hli; exact ((Option.some.injEq _ _).mp hli).symm
          subst hidx0
          have hde : de0 = de := hcons (i, j, de0) (List.mem_cons_self _ _) hmv
          subst hde
          refine convertLoop_keeps_value hvidx
            (fun c hc => hcons c (List.mem_cons_of_mem _ hc)) ?_ h2
          simp [List.getElem?_set_self hlt]
        · have hidx0 : idx0 ≠ idx := by
            intro hcontra
            subst hcontra
            have e1 := listIndex_getElem? hli
            have e2 := listIndex_getElem? hvidx
            rw [e1] at e2
            exact hv0 ((Option.some.injEq _ _).mp e2)
          obtain ⟨c, hc, hcv⟩ := hex
          rcases List.mem_cons.mp hc with rfl | hcrest
          · exact absurd (by rw [hmv] at hcv; exact (Option.some.injEq _ _).mp hcv) hv0
          · exact ih ⟨c, hcrest, hcv⟩ (fun c2 hc2 => hcons c2 (List.mem_cons_of_mem _ hc2))
              (by simpa using hlt) h2

theorem convertLoop_error_of_missing {vv : List PExpr} {mv : Mat PExpr} :
    ∀ {cells : List (Nat × Nat × PExpr)},
      (∀ c ∈ cells, ∀ v, mget? mv c.1 c.2.1 = some v → ∃ idx, listIndex vv v = some idx) →
      (∃ c ∈ cells, mget? mv c.1 c.2.1 = none) →
      ∀ (acc : List PExpr), convertLoop vv mv cells acc = .error .indexOutOfRange := by
  intro cells
  induction cells with
  | nil =>
    intro _ hex acc
    obtain ⟨c, hc, _⟩ := hex
    simp at hc
  | cons c rest ih =>
    obtain ⟨i, j, de⟩ := c
    intro hall hex acc
    cases hmv : mget? mv i j with
    | none => exact convertLoop_cons_none hmv
    | some v =>
      obtain ⟨idx, hidx⟩ := hall (i, j, de) (List.mem_cons_self _ _) v hmv
      rw [convertLoop_cons_step hmv hidx]
      have hrest : ∃ c ∈ rest, mget? mv c.1 c.2.1 = none := by
        obtain ⟨c, hc, hcnone⟩ := hex
        rcases List.mem_cons.mp hc with rfl | hcrest
        · rw [hmv] at hcnone; exact absurd hcnone (by simp)
        · exact ⟨c, hcrest, hcnone⟩
      exact ih (fun c hc => hall c (List.mem_cons_of_mem _ hc)) hrest (acc.set idx de)

/-! Claims about `system_from_matrix_DE`. -/

/-- C2.  For equally shaped `mat_DE` and `mat_var`, `system_from_matrix_DE`
deduplicates the flattened entries of `mat_var` into a state vector whose
length equals the number of distinct symbols of `mat_var` (whatever order the
set produced), and when `mat_var` contains each distinct symbol exactly once,
the conversion succeeds and the derivative vector satisfies the symbol-to-
expression round trip: for every cell `(i, j)` of `mat_DE`, the entry of the
derivative vector at the flat index of `mat_var[i, j]` in the deduplicated
order is `mat_DE[i, j]`. -/
theorem claim_C2_converter_roundtrip :
    ∀ (mat_DE mat_var : Mat PExpr) (vec_var : List PExpr),
      sameShape mat_DE mat_var → IsDedupOf vec_var mat_var →
      vec_var.length = (matFlatten mat_var).dedup.length ∧
      ((matFlatten mat_var).Nodup →
        ∃ vecDE, system_from_matrix_DE vec_var mat_DE mat_var = .ok (vecDE, vec_var) ∧
          vecDE.length = vec_var.length ∧
          ∀ i j de, mget? mat_DE i j = some de →
            ∃ v idx, mget? mat_var i j = some v ∧ listIndex vec_var v = some idx ∧
              vecDE[idx]? = some de) := by
  intro mat_DE mat_var vec_var hshape hded
  obtain ⟨hnd, hmem⟩ := hded
  constructor
  · exact ((List.perm_ext_iff_of_nodup hnd (List.nodup_dedup _)).mpr
      (fun a => by rw [List.mem_dedup]; exact hmem a)).length_eq
  · intro hfnd
    have hcellok : ∀ c ∈ cellsIdx mat_DE,
        ∃ v idx, mget? mat_var c.1 c.2.1 = some v ∧ listIndex vec_var v = some idx := by
      intro c hc
      obtain ⟨ci, cj, cde⟩ := c
      have hDE : mget? mat_DE ci cj = some cde := mem_cellsIdx_iff.mp hc
      obtain ⟨v, hv⟩ := sameShape_mget? hshape hDE
      obtain ⟨idx, hidx⟩ := listIndex_isSome_of_mem ((hmem v).mpr (mget?_mem_matFlatten hv))
      exact ⟨v, idx, hv, hidx⟩
    obtain ⟨vecDE, hloop⟩ :=
      convertLoop_ok_of_forall hcellok (List.replicate vec_var.length (PExpr.num 0))
    refine ⟨vecDE, ?_, ?_, ?_⟩
    · simp [system_from_matrix_DE, hloop]
    · rw [convertLoop_ok_length hloop, List.length_replicate]
    · intro i j de hde
      obtain ⟨v, hv⟩ := sameShape_mget? hshape hde
      obtain ⟨idx, hidx⟩ := listIndex_isSome_of_mem ((hmem v).mpr (mget?_mem_matFlatten hv))
      refine ⟨v, idx, hv, hidx, ?_⟩
      refine convertLoop_writes_value hidx ⟨(i, j, de), mem_cellsIdx_iff.mpr hde, hv⟩
        ?_ ?_ hloop
      · intro c hc hcv
        obtain ⟨ci, cj, cde⟩ := c
        have hcDE : mget? mat_DE ci cj = some cde := mem_cellsIdx_iff.mp hc
        have hcv2 : mget? mat_var ci cj = some v := hcv
        obtain ⟨hi, hj⟩ := mget?_inj_of_flatten_nodup hfnd hcv2 hv
        rw [hi, hj, hde] at hcDE
        show cde = de
        exact ((Option.some.injEq _ _).mp hcDE).symm
      · rw [List.length_replicate]
        exact listIndex_lt_length hidx

/-- C2 witness: the round trip at a concrete input, with the deduplicated
order deliberately chosen different from scan order. -/
theorem claim_C2_converter_roundtrip_witness :
    ∃ vecDE, system_from_matrix_DE [PExpr.sym "q", PExpr.sym "p"]
        [[PExpr.num 10, PExpr.num 20]] [[PExpr.sym "p", PExpr.sym "q"]]
      = .ok (vecDE, [PExpr.sym "q", PExpr.sym "p"]) ∧ vecDE.length = 2 := by
  obtain ⟨hlen, hrest⟩ := claim_C2_converter_roundtrip
    [[PExpr.num 10, PExpr.num 20]] [[PExpr.sym "p", PExpr.sym "q"]]
    [PExpr.sym "q", PExpr.sym "p"] (by decide)
    ⟨by decide, fun s => by simp [matFlatten]; tauto⟩
  obtain ⟨vecDE, hok, hlen2, _⟩ := hrest (by decide)
  exact ⟨vecDE, hok, by simpa using hlen2⟩

/-- C10 (implicit).  Under the equal-shape precondition, the per-cell lookup
of `mat_var[i, j]` in the deduplicated state list succeeds at every cell of
`mat_DE` (every visited entry is a member of the list), so the symbol-not-
found branch is unreachable and the conversion returns a result rather than
any error.  Only containment of the flattened entries in `vec_var` is needed,
which holds for every possible set order. -/
theorem claim_C10_lookup_never_fails :
    ∀ (mat_DE mat_var : Mat PExpr) (vec_var : List PExpr),
      sameShape mat_DE mat_var →
      (∀ s : PExpr, s ∈ matFlatten mat_var → s ∈ vec_var) →
      (∀ i j de, mget? mat_DE i j = some de →
        ∃ v idx, mget? mat_var i j = some v ∧ listIndex vec_var v = some idx) ∧
      ∃ res, system_from_matrix_DE vec_var mat_DE mat_var = .ok res := by
  intro mat_DE mat_var vec_var hshape hsub
  have hcell : ∀ i j de, mget? mat_DE i j = some de →
      ∃ v idx, mget? mat_var i j = some v ∧ listIndex vec_var v = some idx := by
    intro i j de hde
    obtain ⟨v, hv⟩ := sameShape_mget? hshape hde
    obtain ⟨idx, hidx⟩ := listIndex_isSome_of_mem (hsub v (mget?_mem_matFlatten hv))
    exact ⟨v, idx, hv, hidx⟩
  refine ⟨hcell, ?_⟩
  obtain ⟨vecDE, hloop⟩ := convertLoop_ok_of_forall (fun c hc => by
      obtain ⟨ci, cj, cde⟩ := c
      exact hcell ci cj cde (mem_cellsIdx_iff.mp hc))
    (List.replicate vec_var.length (PExpr.num 0))
  exact ⟨(vecDE, vec_var), by simp [system_from_matrix_DE, hloop]⟩

/-- C10 witness: a duplicate state symbol with equal shapes; the conversion
still returns a result and every lookup succeeds. -/
theorem claim_C10_lookup_never_fails_witness :
    ∃ res, system_from_matrix_DE [PExpr.sym "a"]
        [[PExpr.num 1], [PExpr.num 2]] [[PExpr.sym "a"], [PExpr.sym "a"]] = .ok res := by
  exact (claim_C10_lookup_never_fails [[PExpr.num 1], [PExpr.num 2]]
    [[PExpr.sym "a"], [PExpr.sym "a"]] [PExpr.sym "a"] (by decide)
    (fun s hs => by simpa [matFlatten] using hs)).2

/-- C3 counterexample.  The claim says every call with differently shaped
`mat_DE` and `mat_var` fails; but with a 1×1 `mat_DE` and a 2×2 `mat_var`
(shapes differ, and the shown state list is a legitimate set order of the
flattened `mat_var`) the conversion performs no shape check and returns a
result, with the unvisited derivative entries left at zero. -/
theorem claim_C3_counterexample :
    ¬ sameShape ([[PExpr.num 7]] : Mat PExpr)
        [[PExpr.sym "x", PExpr.sym "y"], [PExpr.sym "z", PExpr.sym "w"]] ∧
    IsDedupOf [PExpr.sym "x", PExpr.sym "y", PExpr.sym "z", PExpr.sym "w"]
        [[PExpr.sym "x", PExpr.sym "y"], [PExpr.sym "z", PExpr.sym "w"]] ∧
    system_from_matrix_DE [PExpr.sym "x", PExpr.sym "y", PExpr.sym "z", PExpr.sym "w"]
        [[PExpr.num 7]] [[PExpr.sym "x", PExpr.sym "y"], [PExpr.sym "z", PExpr.sym "w"]]
      = .ok ([PExpr.num 7, PExpr.num 0, PExpr.num 0, PExpr.num 0],
             [PExpr.sym "x", PExpr.sym "y", PExpr.sym "z", PExpr.sym "w"]) := by
  refine ⟨by decide, ⟨by decide, fun s => Iff.rfl⟩, by decide⟩

/-- C3 as amended.  `system_from_matrix_DE` performs no shape comparison: it
fails, with an index-out-of-range error raised synchronously and no partial
result in the returned value, exactly when some row-major cell of `mat_DE`
lies outside `mat_var`; when every cell of `mat_DE` is within `mat_var` — in
particular whenever `mat_var` is the larger matrix — no error is raised even
though the shapes differ. -/
theorem claim_C3_amended :
    ∀ (mat_DE mat_var : Mat PExpr) (vec_var : List PExpr),
      (∀ s : PExpr, s ∈ matFlatten mat_var → s ∈ vec_var) →
      (∃ i j de, mget? mat_DE i j = some de ∧ mget? mat_var i j = none) →
      system_from_matrix_DE vec_var mat_DE mat_var = .error .indexOutOfRange := by
  intro mat_DE mat_var vec_var hsub hex
  have hall : ∀ c ∈ cellsIdx mat_DE, ∀ v, mget? mat_var c.1 c.2.1 = some v →
      ∃ idx, listIndex vec_var v = some idx := by
    intro c _ v hv
    exact listIndex_isSome_of_mem (hsub v (mget?_mem_matFlatten hv))
  have hexc : ∃ c ∈ cellsIdx mat_DE, mget? mat_var c.1 c.2.1 = none := by
    obtain ⟨i, j, de, hde, hnone⟩ := hex
    exact ⟨(i, j, de), mem_cellsIdx_iff.mpr hde, hnone⟩
  have hloop := convertLoop_error_of_missing hall hexc
    (List.replicate vec_var.length (PExpr.num 0))
  simp [system_from_matrix_DE, hloop]

/-- C3 amended witness: a 1×2 `mat_DE` with a 1×1 `mat_var` fails with the
index error. -/
theorem claim_C3_amended_witness :
    system_from_matrix_DE [PExpr.sym "a"] [[PExpr.num 1, PExpr.num 2]] [[PExpr.sym "a"]]
      = .error .indexOutOfRange := by
  exact claim_C3_amended [[PExpr.num 1, PExpr.num 2]] [[PExpr.sym "a"]] [PExpr.sym "a"]
    (fun s hs => by simpa [matFlatten] using hs)
    ⟨0, 1, PExpr.num 2, by decide, by decide⟩

/-! Lemmas about the reconstruction callable. -/

theorem trajErr_eq (e : TrajErr) : e = .symbolNotFound := by cases e; rfl

theorem lookupCol_of_some {unraveled : List PExpr} {s : PExpr} {idx : Nat}
    (h : listIndex unraveled s = some idx) : lookupCol unraveled s = .ok idx := by
  simp [lookupCol, h]

theorem lookupCol_of_none {unraveled : List PExpr} {s : PExpr}
    (h : listIndex unraveled s = none) : lookupCol unraveled s = .error .symbolNotFound := by
  simp [lookupCol, h]

theorem nested_ok_getElem? {γ : Type} {g : PExpr → Except TrajErr γ}
    {raveled : Mat PExpr} {R : Mat γ}
    (h : rowMapE (rowMapE g) raveled = .ok R) {i j : Nat} {s : PExpr}
    (hs : mget? raveled i j = some s) : ∃ b, g s = .ok b ∧ mget? R i j = some b := by
  simp only [mget?] at hs
  cases hrow : raveled[i]? with
  | none => rw [hrow] at hs; exact absurd hs (by simp)
  | some row =>
    rw [hrow] at hs
    have hs2 : row[j]? = some s := hs
    obtain ⟨r2, hr2, hR⟩ := rowMapE_ok_getElem? h hrow
    obtain ⟨b, hb, hr2j⟩ := rowMapE_ok_getElem? hr2 hs2
    exact ⟨b, hb, by simp [mget?, hR, hr2j]⟩

theorem nested_ok_of_total {γ : Type} (g : PExpr → Except TrajErr γ)
    {unraveled : List PExpr} {raveled : Mat PExpr}
    (hg : ∀ s : PExpr, s ∈ unraveled → ∃ b, g s = .ok b)
    (hall : ∀ i j s, mget? raveled i j = some s → s ∈ unraveled) :
    ∃ R, rowMapE (rowMapE g) raveled = .ok R := by
  refine rowMapE_ok_of_forall ?_
  intro row hrowmem
  refine rowMapE_ok_of_forall ?_
  intro s hsmem
  obtain ⟨i, hrow⟩ := List.mem_iff_getElem?.mp hrowmem
  obtain ⟨j, hcell⟩ := List.mem_iff_getElem?.mp hsmem
  exact hg s (hall i j s (by simp [mget?, hrow, hcell]))

theorem nested_error_of_missing {γ : Type} {g : PExpr → Except TrajErr γ}
    {raveled : Mat PExpr} {i j : Nat} {s : PExpr}
    (hs : mget? raveled i j = some s) (hgs : g s = .error .symbolNotFound) :
    rowMapE (rowMapE g) raveled = .error .symbolNotFound := by
  simp only [mget?] at hs
  cases hrow : raveled[i]? with
  | none => rw [hrow] at hs; exact absurd hs (by simp)
  | some row =>
    rw [hrow] at hs
    have hs2 : row[j]? = some s := hs
    obtain ⟨e1, he1⟩ := rowMapE_error_of_mem (List.getElem?_mem hs2) hgs
    obtain ⟨e2, he2⟩ := rowMapE_error_of_mem (List.getElem?_mem hrow) he1
    rw [he2, trajErr_eq e2]

theorem rowMapE_nested_sameShape {γ : Type} {g : PExpr → Except TrajErr γ}
    {raveled : Mat PExpr} {R : Mat γ}
    (h : rowMapE (rowMapE g) raveled = .ok R) : sameShape R raveled := by
  refine List.ext_getElem? ?_
  intro i
  rw [List.getElem?_map, List.getElem?_map]
  cases hrow : raveled[i]? with
  | none =>
    have hlen := rowMapE_ok_length h
    have hR : R[i]? = none := by
      rw [List.getElem?_eq_none_iff] at hrow ⊢
      omega
    rw [hR]
    rfl
  | some row =>
    obtain ⟨r2, hr2, hR⟩ := rowMapE_ok_getElem? h hrow
    rw [hR]
    simp [rowMapE_ok_length hr2]

theorem mget?_map {α β : Type} (f : α → β) (m : Mat α) (i j : Nat) :
    mget? (m.map (List.map f)) i j = Option.map f (mget? m i j) := by
  simp only [mget?, List.getElem?_map]
  cases hrow : m[i]? with
  | none => rfl
  | some row => simp [List.getElem?_map]

theorem sameShape_map {α β : Type} (f : α → β) (m : Mat α) :
    sameShape (m.map (List.map f)) m := by
  simp only [sameShape, List.map_map]
  congr 1
  funext l
  simp

theorem sameShape_trans {α β γ : Type} {A : Mat α} {B : Mat β} {C : Mat γ}
    (h1 : sameShape A B) (h2 : sameShape B C) : sameShape A C := by
  simp only [sameShape] at h1 h2 ⊢
  rw [h1, h2]

theorem matrix_callable_scalar (unraveled : List PExpr) (raveled : Mat PExpr)
    (vc : VectorCallable) (tval : Int) :
    matrix_callable unraveled raveled vc (.scalar tval) =
      match rowMapE (rowMapE (fun s =>
          match lookupCol unraveled s with
          | .ok idx => .ok ((vc.atScalar tval).getD idx 0)
          | .error e => .error e)) raveled with
      | .error e => .error e
      | .ok m => .ok (.single m) := rfl

theorem matrix_callable_seq (unraveled : List PExpr) (raveled : Mat PExpr)
    (vc : VectorCallable) (ts : List Int) :
    matrix_callable unraveled raveled vc (.seq ts) =
      if 1 < ts.length then
        match rowMapE (rowMapE (lookupCol unraveled)) raveled with
        | .error e => .error e
        | .ok idxs => .ok (.stacked ((List.range ts.length).map (fun k =>
            idxs.map (fun row => row.map (fun idx =>
              ((vc.atSeq ts).getD idx []).getD k 0)))))
      else
        match rowMapE (rowMapE (fun s =>
            match lookupCol unraveled s with
            | .ok idx => .ok (((vc.atSeq ts).getD idx []).getD 0 0)
            | .error e => .error e)) raveled with
        | .error e => .error e
        | .ok m => .ok (.single m) := rfl

theorem matrix_callable_seq_batch {ts : List Int} (h : 1 < ts.length)
    (unraveled : List PExpr) (raveled : Mat PExpr) (vc : VectorCallable) :
    matrix_callable unraveled raveled vc (.seq ts) =
      match rowMapE (rowMapE (lookupCol unraveled)) raveled with
      | .error e => .error e
      | .ok idxs => .ok (.stacked ((List.range ts.length).map (fun k =>
          idxs.map (fun row => row.map (fun idx =>
            ((vc.atSeq ts).getD idx []).getD k 0))))) := by
  rw [matrix_callable_seq, if_pos h]

theorem matrix_callable_seq_single {ts : List Int} (h : ¬ 1 < ts.length)
    (unraveled : List PExpr) (raveled : Mat PExpr) (vc : VectorCallable) :
    matrix_callable unraveled raveled vc (.seq ts) =
      match rowMapE (rowMapE (fun s =>
          match lookupCol unraveled s with
          | .ok idx => .ok (((vc.atSeq ts).getD idx []).getD 0 0)
          | .error e => .error e)) raveled with
      | .error e => .error e
      | .ok m => .ok (.single m) := by
  rw [matrix_callable_seq, if_neg h]

/-! Claims about the trajectory reconstruction. -/

/-- C1.  The callable returned by `matrix_callable_from_vector_trajectory`,
applied to a single scalar time, produces a matrix whose `(i, j)` entry is
the vector result at the column index where the unraveled order equals
`raveled[i, j]` (stated for every interpolating vector callable); and at the
spec's concrete input — unraveled order `[a, b, c]`, one sample row
`[1, 2, 3]`, raveled layout `[[a, b], [b, c]]` — the reconstruction at the
sample time is `[[1, 2], [2, 3]]`. -/
theorem claim_C1_scalar_reconstruction :
    (∀ (unraveled : List PExpr) (raveled : Mat PExpr) (vc : VectorCallable)
        (tval : Int) (m : Mat Int),
      matrix_callable unraveled raveled vc (.scalar tval) = .ok (.single m) →
      ∀ i j s, mget? raveled i j = some s →
        ∃ idx, listIndex unraveled s = some idx ∧
          mget? m i j = some ((vc.atScalar tval).getD idx 0)) ∧
    matrix_callable_from_vector_trajectory [5] [[1, 2, 3]]
      [PExpr.sym "a", PExpr.sym "b", PExpr.sym "c"]
      [[PExpr.sym "a", PExpr.sym "b"], [PExpr.sym "b", PExpr.sym "c"]]
      (.scalar 5) = .ok (.single [[1, 2], [2, 3]]) := by
  constructor
  · intro unraveled raveled vc tval m h i j s hs
    rw [matrix_callable_scalar] at h
    cases hrm : rowMapE (rowMapE (fun s =>
        match lookupCol unraveled s with
        | .ok idx => .ok ((vc.atScalar tval).getD idx 0)
        | .error e => .error e)) raveled with
    | error e => rw [hrm] at h; exact absurd h (by simp)
    | ok m2 =>
      rw [hrm] at h
      have h2 : (Except.ok (MatResult.single m2) : Except TrajErr MatResult)
          = .ok (.single m) := h
      simp only [Except.ok.injEq, MatResult.single.injEq] at h2
      subst h2
      obtain ⟨b, hb, hmb⟩ := nested_ok_getElem? hrm hs
      cases hli : listIndex unraveled s with
      | none =>
        rw [lookupCol_of_none hli] at hb
        exact absurd hb (by simp)
      | some idx =>
        rw [lookupCol_of_some hli] at hb
        have hb2 : (Except.ok ((vc.atScalar tval).getD idx 0) : Except TrajErr Int)
            = .ok b := hb
        simp only [Except.ok.injEq] at hb2
        subst hb2
        exact ⟨idx, rfl, hmb⟩
  · decide

/-- C1 witness: the general conjunct applied at a concrete reconstruction. -/
theorem claim_C1_scalar_reconstruction_witness :
    ∃ idx, listIndex [PExpr.sym "a"] (PExpr.sym "a") = some idx ∧
      mget? [[9]] 0 0 = some
        (((callable_from_trajectory [0] [[9]]).atScalar 0).getD idx 0) := by
  exact claim_C1_scalar_reconstruction.1 [PExpr.sym "a"] [[PExpr.sym "a"]]
    (callable_from_trajectory [0] [[9]]) 0 [[9]] (by decide) 0 0 (PExpr.sym "a") (by decide)

/-- C6.  Whenever some raveled-layout symbol is absent from the unraveled
order, every invocation of the reconstruction callable fails with the
symbol-not-found error (never swallowed); conversely, when every raveled
symbol occurs in the unraveled order, no such error is raised and a result is
returned. -/
theorem claim_C6_lookup_error_propagates :
    ∀ (unraveled : List PExpr) (raveled : Mat PExpr) (vc : VectorCallable) (t : TimeArg),
      ((∃ i j s, mget? raveled i j = some s ∧ s ∉ unraveled) →
        matrix_callable unraveled raveled vc t = .error .symbolNotFound) ∧
      ((∀ i j s, mget? raveled i j = some s → s ∈ unraveled) →
        ∃ r, matrix_callable unraveled raveled vc t = .ok r) := by
  intro unraveled raveled vc t
  constructor
  · rintro ⟨i, j, s, hs, hnotmem⟩
    have hli : listIndex unraveled s = none := listIndex_eq_none_iff.mpr hnotmem
    cases t with
    | scalar tval =>
      rw [matrix_callable_scalar,
        nested_error_of_missing hs (by rw [lookupCol_of_none hli])]
    | seq ts =>
      by_cases hlen : 1 < ts.length
      · rw [matrix_callable_seq_batch hlen,
          nested_error_of_missing hs (lookupCol_of_none hli)]
      · rw [matrix_callable_seq_single hlen,
          nested_error_of_missing hs (by rw [lookupCol_of_none hli])]
  · intro hall
    cases t with
    | scalar tval =>
      obtain ⟨R, hR⟩ := nested_ok_of_total (fun s =>
          match lookupCol unraveled s with
          | .ok idx => .ok ((vc.atScalar tval).getD idx 0)
          | .error e => .error e)
        (fun s hmem => by
          obtain ⟨idx, hidx⟩ := listIndex_isSome_of_mem hmem
          exact ⟨(vc.atScalar tval).getD idx 0, by simp only [lookupCol_of_some hidx]⟩)
        hall
      exact ⟨.single R, by rw [matrix_callable_scalar, hR]⟩
    | seq ts =>
      by_cases hlen : 1 < ts.length
      · obtain ⟨R, hR⟩ := nested_ok_of_total (lookupCol unraveled)
          (fun s hmem => by
            obtain ⟨idx, hidx⟩ := listIndex_isSome_of_mem hmem
            exact ⟨idx, lookupCol_of_some hidx⟩)
          hall
        exact ⟨.stacked ((List.range ts.length).map (fun k =>
            R.map (fun row => row.map (fun idx =>
              ((vc.atSeq ts).getD idx []).getD k 0)))),
          by rw [matrix_callable_seq_batch hlen, hR]⟩
      · obtain ⟨R, hR⟩ := nested_ok_of_total (fun s =>
            match lookupCol unraveled s with
            | .ok idx => .ok (((vc.atSeq ts).getD idx []).getD 0 0)
            | .error e => .error e)
          (fun s hmem => by
            obtain ⟨idx, hidx⟩ := listIndex_isSome_of_mem hmem
            exact ⟨((vc.atSeq ts).getD idx []).getD 0 0,
              by simp only [lookupCol_of_some hidx]⟩)
          hall
        exact ⟨.single R, by rw [matrix_callable_seq_single hlen, hR]⟩

/-- C6 witness: a raveled symbol missing from the unraveled order makes the
call fail, at a concrete input. -/
theorem claim_C6_lookup_error_propagates_witness :
    matrix_callable [PExpr.sym "a"] [[PExpr.sym "z"]]
      (callable_from_trajectory [0] [[9]]) (.scalar 0) = .error .symbolNotFound := by
  exact (claim_C6_lookup_error_propagates [PExpr.sym "a"] [[PExpr.sym "z"]]
    (callable_from_trajectory [0] [[9]]) (.scalar 0)).1
    ⟨0, 0, PExpr.sym "z", by decide, by decide⟩

/-- C4.  Applied to a sequence of more than one time, the callable returns a
stack of one reconstructed matrix per time (each slice shaped like the
raveled layout, its `(i, j)` entry the vector result for that symbol at that
time); applied to a sequence of length exactly one it follows the scalar
case and returns a single, unstacked matrix. -/
theorem claim_C4_seq_branching :
    ∀ (unraveled : List PExpr) (raveled : Mat PExpr) (vc : VectorCallable) (ts : List Int),
      (1 < ts.length → ∀ r, matrix_callable unraveled raveled vc (.seq ts) = .ok r →
        ∃ l, r = .stacked l ∧ l.length = ts.length ∧
          (∀ sl ∈ l, sameShape sl raveled) ∧
          (∀ k sl, l[k]? = some sl → ∀ i j s, mget? raveled i j = some s →
            ∃ idx, listIndex unraveled s = some idx ∧
              mget? sl i j = some (((vc.atSeq ts).getD idx []).getD k 0))) ∧
      (ts.length = 1 → ∀ r, matrix_callable unraveled raveled vc (.seq ts) = .ok r →
        ∃ m, r = .single m ∧ sameShape m raveled) := by
  intro unraveled raveled vc ts
  constructor
  · intro hlen r h
    rw [matrix_callable_seq_batch hlen] at h
    cases hrm : rowMapE (rowMapE (lookupCol unraveled)) raveled with
    | error e => rw [hrm] at h; exact absurd h (by simp)
    | ok idxs =>
      rw [hrm] at h
      have h2 : (Except.ok (MatResult.stacked ((List.range ts.length).map (fun k =>
          idxs.map (fun row => row.map (fun idx =>
            ((vc.atSeq ts).getD idx []).getD k 0))))) : Except TrajErr MatResult)
          = .ok r := h
      have hshape : sameShape idxs raveled := rowMapE_nested_sameShape hrm
      refine ⟨(List.range ts.length).map (fun k =>
          idxs.map (fun row => row.map (fun idx =>
            ((vc.atSeq ts).getD idx []).getD k 0))), ?_, by simp, ?_, ?_⟩
      · cases h2; rfl
      · intro sl hsl
        obtain ⟨k, _, rfl⟩ := List.mem_map.mp hsl
        exact sameShape_trans (sameShape_map _ idxs) hshape
      · intro k sl hsl i j s hs
        rw [List.getElem?_map] at hsl
        cases hk : (List.range ts.length)[k]? with
        | none => rw [hk] at hsl; exact absurd hsl (by simp)
        | some k2 =>
          rw [hk] at hsl
          have hk2 : k2 = k := by
            have hklen : k < ts.length := by
              by_contra hge
              rw [List.getElem?_eq_none (by simpa using Nat.le_of_not_lt hge)] at hk
              exact absurd hk (by simp)
            have := List.getElem?_range hklen
            rw [this] at hk
            exact ((Option.some.injEq _ _).mp hk).symm
          subst k2
          have hsl2 : sl = idxs.map (fun row => row.map (fun idx =>
              ((vc.atSeq ts).getD idx []).getD k 0)) := by
            simp only [Option.map_some', Option.some.injEq] at hsl
            exact hsl.symm
          subst hsl2
          obtain ⟨b, hb, hmb⟩ := nested_ok_getElem? hrm hs
          cases hli : listIndex unraveled s with
          | none =>
            rw [lookupCol_of_none hli] at hb
            exact absurd hb (by simp)
          | some idx =>
            rw [lookupCol_of_some hli] at hb
            have hb2 : idx = b := (Option.some.injEq _ _).mp
              (congrArg (fun x => match x with | Except.ok v => some v | _ => none) hb)
            subst hb2
            refine ⟨idx, rfl, ?_⟩
            rw [mget?_map, hmb]
            rfl
  · intro hlen r h
    rw [matrix_callable_seq_single (by omega)] at h
    cases hrm : rowMapE (rowMapE (fun s =>
        match lookupCol unraveled s with
        | .ok idx => .ok (((vc.atSeq ts).getD idx []).getD 0 0)
        | .error e => .error e)) raveled with
    | error e => rw [hrm] at h; exact absurd h (by simp)
    | ok m2 =>
      rw [hrm] at h
      have h2 : (Except.ok (MatResult.single m2) : Except TrajErr MatResult) = .ok r := h
      cases h2
      exact ⟨m2, rfl, rowMapE_nested_sameShape hrm⟩

/-- C4 witness: two times give a stack of two matrices; one time gives a
single matrix. -/
theorem claim_C4_seq_branching_witness :
    (∃ l, (MatResult.stacked [[[1, 3]], [[2, 4]]] : MatResult) = .stacked l ∧
      l.length = 2) ∧
    (∃ m, (MatResult.single [[2, 4]] : MatResult) = .single m ∧
      sameShape m [[PExpr.sym "a", PExpr.sym "b"]]) := by
  constructor
  · obtain ⟨l, hl, hlen, -, -⟩ :=
      (claim_C4_seq_branching [PExpr.sym "a", PExpr.sym "b"]
        [[PExpr.sym "a", PExpr.sym "b"]]
        (callable_from_trajectory [0, 1] [[1, 3], [2, 4]]) [0, 1]).1
      (by decide) (.stacked [[[1, 3]], [[2, 4]]]) (by decide)
    exact ⟨l, hl, by simpa using hlen⟩
  · obtain ⟨m, hm, hshape⟩ :=
      (claim_C4_seq_branching [PExpr.sym "a", PExpr.sym "b"]
        [[PExpr.sym "a", PExpr.sym "b"]]
        (callable_from_trajectory [0, 1] [[1, 3], [2, 4]]) [1]).2
      (by decide) (.single [[2, 4]]) (by decide)
    exact ⟨m, hm, hshape⟩

/-! Lemmas about `matrix_subs` and substitution. -/

/-- The entry is a sympy symbol. -/
def PExpr.isSym : PExpr → Bool
  | .sym _ => true
  | .num _ => false

/-- The entry is a number. -/
def PExpr.isNum : PExpr → Bool
  | .sym _ => false
  | .num _ => true

theorem rowMapE_singleton {α β ε : Type} (f : α → Except ε β) (a : α) :
    rowMapE f [a] =
      match f a with
      | .error e => .error e
      | .ok b => .ok [b] := by
  cases hfa : f a <;> simp [rowMapE, hfa]

theorem rowMapE_mem_ok {α β ε : Type} {f : α → Except ε β} :
    ∀ {l : List α} {r : List β}, rowMapE f l = .ok r →
      ∀ {a : α} {b : β}, a ∈ l → f a = .ok b → b ∈ r := by
  intro l r h a b hmem hfa
  obtain ⟨n, hn⟩ := List.mem_iff_getElem?.mp hmem
  obtain ⟨b2, hb2, hr⟩ := rowMapE_ok_getElem? h hn
  rw [hfa] at hb2
  have : b = b2 := (Option.some.injEq _ _).mp
    (congrArg (fun x => match x with | Except.ok v => some v | _ => none) hb2)
  subst this
  exact List.getElem?_mem hr

theorem mem_nonzeroCells_iff {A : Mat PExpr} {i j : Nat} {s : PExpr} :
    (i, j, s) ∈ nonzeroCells A ↔ mget? A i j = some s ∧ s ≠ PExpr.num 0 := by
  simp [nonzeroCells, List.mem_filter, mem_cellsIdx_iff]

theorem tupleIndex_mat_of_some {B : Mat PExpr} {i j : Nat} {v : PExpr}
    (h : mget? B i j = some v) : tupleIndex (.mat B) i j = .ok v := by
  simp [tupleIndex, h]

theorem tupleIndex_mat_ok_inv {B : Mat PExpr} {i j : Nat} {v : PExpr}
    (h : tupleIndex (.mat B) i j = .ok v) : mget? B i j = some v := by
  simp only [tupleIndex] at h
  cases hm : mget? B i j with
  | none => rw [hm] at h; exact absurd h (by simp)
  | some v2 =>
    rw [hm] at h
    have h2 : (Except.ok v2 : Except SubsErr PExpr) = .ok v := h
    simp only [Except.ok.injEq] at h2
    rw [h2]

theorem applySubsExpr_num {z : Int} :
    ∀ {l : List (PExpr × PExpr)},
      (∀ pv ∈ l, ∃ nm2, pv.1 = PExpr.sym nm2) →
      applySubsExpr l (PExpr.num z) = PExpr.num z := by
  intro l
  induction l with
  | nil => intro _; rfl
  | cons pv rest ih =>
    obtain ⟨p, w⟩ := pv
    intro hall
    obtain ⟨nm2, hp⟩ := hall (p, w) (List.mem_cons_self _ _)
    have hne : PExpr.num z ≠ p := by
      rw [show p = PExpr.sym nm2 from hp]
      intro hcontra
      exact PExpr.noConfusion hcontra
    show applySubsExpr rest (if PExpr.num z = p then w else PExpr.num z) = PExpr.num z
    rw [if_neg hne]
    exact ih (fun pv hpv => hall pv (List.mem_cons_of_mem _ hpv))

theorem applySubsExpr_resolved {nm : String} {v : PExpr} :
    ∀ {l : List (PExpr × PExpr)},
      (PExpr.sym nm, v) ∈ l →
      (∀ pv ∈ l, pv.1 = PExpr.sym nm → pv.2 = v) →
      (∀ pv ∈ l, ∃ nm2, pv.1 = PExpr.sym nm2) →
      (∃ z, v = PExpr.num z) →
      applySubsExpr l (PExpr.sym nm) = v := by
  intro l
  induction l with
  | nil => intro hmem; simp at hmem
  | cons pv rest ih =>
    obtain ⟨p, w⟩ := pv
    intro hmem hcons hsyms hnum
    by_cases hp : PExpr.sym nm = p
    · have hw : w = v := hcons (p, w) (List.mem_cons_self _ _) hp.symm
      subst hw
      show applySubsExpr rest (if PExpr.sym nm = p then w else PExpr.sym nm) = w
      rw [if_pos hp]
      obtain ⟨z, hz⟩ := hnum
      subst hz
      exact applySubsExpr_num (fun pv hpv => hsyms pv (List.mem_cons_of_mem _ hpv))
    · show applySubsExpr rest (if PExpr.sym nm = p then w else PExpr.sym nm) = v
      rw [if_neg hp]
      have hmem2 : (PExpr.sym nm, v) ∈ rest := by
        rcases List.mem_cons.mp hmem with heq | h2
        · exact absurd (show PExpr.sym nm = p from congrArg (fun t => t.1) heq) hp
        · exact h2
      exact ih hmem2 (fun pv hpv => hcons pv (List.mem_cons_of_mem _ hpv))
        (fun pv hpv => hsyms pv (List.mem_cons_of_mem _ hpv)) hnum

/-! Claims about `matrix_subs`. -/

/-- C5 (code bug).  The docstring promises that a dict of matrix pairs is
accepted, and the source even has a dict branch; but after `*subs` packing,
`subs` is always a tuple or list, so that branch is unreachable and a
mapping argument reaches the tuple branch, whose `sub[0]` indexing raises
`KeyError` instead of returning the promised symbol-to-value mapping.  For
contrast, the pair-sequence form works and keeps duplicate symbols
positionally. -/
theorem claim_C5_dict_input_keyerror :
    matrix_subs [.dict [([[PExpr.sym "x"]], [[PExpr.num 1]])]] = .error .keyError ∧
    matrix_subs [.tup (.mat [[PExpr.sym "x"]]) (.mat [[PExpr.num 1]]),
                 .tup (.mat [[PExpr.sym "x"]]) (.mat [[PExpr.num 2]])]
      = .ok [(PExpr.sym "x", PExpr.num 1), (PExpr.sym "x", PExpr.num 2)] := by
  exact ⟨by decide, by decide⟩

/-- C7 counterexample.  A symbolic matrix `[[x, x]]` with value matrix
`[[1, 2]]` has two nonzero entries and `matrix_subs` emits both pairs; but
substituting the pair list into the symbolic matrix (sympy's sequential
`subs`) gives `[[1, 1]]`, which disagrees with the value matrix at the
nonzero position `(0, 1)` — so the round trip of the claim fails as stated. -/
theorem claim_C7_counterexample :
    sameShape [[PExpr.sym "x", PExpr.sym "x"]] [[PExpr.num 1, PExpr.num 2]] ∧
    matrix_subs [.mat [[PExpr.sym "x", PExpr.sym "x"]], .mat [[PExpr.num 1, PExpr.num 2]]]
      = .ok [(PExpr.sym "x", PExpr.num 1), (PExpr.sym "x", PExpr.num 2)] ∧
    applySubsMat [(PExpr.sym "x", PExpr.num 1), (PExpr.sym "x", PExpr.num 2)]
      [[PExpr.sym "x", PExpr.sym "x"]] = [[PExpr.num 1, PExpr.num 1]] ∧
    mget? [[PExpr.num 1, PExpr.num 2]] 0 1 = some (PExpr.num 2) ∧
    (PExpr.num 1 : PExpr) ≠ PExpr.num 2 := by
  refine ⟨by decide, by decide, by decide, by decide, by decide⟩

/-- C7 as amended.  For equally shaped matrices, `matrix_subs` on the single
pair emits exactly one entry per nonzero position of the symbolic matrix and
none for zero positions; substituting the result back reproduces the value
matrix at every nonzero position provided the substitution is well posed for
sympy's sequential `subs`: nonzero symbolic entries are symbols, value
entries are numbers, and repeated symbols carry consistent values. -/
theorem claim_C7_flattener_roundtrip :
    ∀ (A B : Mat PExpr), sameShape A B →
      ∃ l, matrix_subs [.mat A, .mat B] = .ok l ∧
        l.length = (nonzeroCells A).length ∧
        (∀ i j s, mget? A i j = some s → s ≠ PExpr.num 0 →
          ∃ v, mget? B i j = some v ∧ (s, v) ∈ l) ∧
        (∀ p ∈ l, ∃ i j, mget? A i j = some p.1 ∧ p.1 ≠ PExpr.num 0 ∧
          mget? B i j = some p.2) ∧
        ((∀ c ∈ nonzeroCells A, PExpr.isSym c.2.2 = true) →
         (∀ c ∈ cellsIdx B, PExpr.isNum c.2.2 = true) →
         (∀ c ∈ nonzeroCells A, ∀ c2 ∈ nonzeroCells A, c.2.2 = c2.2.2 →
            mget? B c.1 c.2.1 = mget? B c2.1 c2.2.1) →
         ∀ i j s, mget? A i j = some s → s ≠ PExpr.num 0 →
           mget? (applySubsMat l A) i j = mget? B i j) := by
  intro A B hshape
  have hcellok : ∀ c ∈ nonzeroCells A,
      ∃ b, (fun c => match tupleIndex (.mat B) c.1 c.2.1 with
        | .ok v => Except.ok (c.2.2, v)
        | .error e => .error e) c = .ok b := by
    intro c hc
    obtain ⟨ci, cj, cs⟩ := c
    obtain ⟨hA, _⟩ := mem_nonzeroCells_iff.mp hc
    obtain ⟨v, hv⟩ := sameShape_mget? hshape hA
    exact ⟨(cs, v), by simp [tupleIndex_mat_of_some hv]⟩
  obtain ⟨l0, hl0⟩ := rowMapE_ok_of_forall hcellok
  have hflat : flattenSub (PyObj.tup (PyObj.mat A) (PyObj.mat B)) = .ok l0 := hl0
  have h1 : rowMapE flattenSub [PyObj.tup (PyObj.mat A) (PyObj.mat B)] = .ok [l0] := by
    rw [rowMapE_singleton, hflat]
  have hms : matrix_subs [.mat A, .mat B] = .ok (List.flatten [l0]) := by
    show (match rowMapE flattenSub [PyObj.tup (PyObj.mat A) (PyObj.mat B)] with
          | .error e => (.error e : Except SubsErr (List (PExpr × PExpr)))
          | .ok ls => .ok ls.flatten) = .ok (List.flatten [l0])
    rw [h1]
  have hms2 : matrix_subs [.mat A, .mat B] = .ok l0 := by
    rw [hms]
    simp
  have hbackward : ∀ p ∈ l0, ∃ i j, mget? A i j = some p.1 ∧ p.1 ≠ PExpr.num 0 ∧
      mget? B i j = some p.2 := by
    intro p hp
    obtain ⟨c, hc, hfc⟩ := rowMapE_mem_of_ok hl0 hp
    obtain ⟨ci, cj, cs⟩ := c
    obtain ⟨hA, hnz⟩ := mem_nonzeroCells_iff.mp hc
    refine ⟨ci, cj, ?_⟩
    cases htup : tupleIndex (.mat B) ci cj with
    | error e =>
      rw [show tupleIndex (PyObj.mat B) (ci, cj, cs).1 (ci, cj, cs).2.1
        = .error e from htup] at hfc
      exact absurd hfc (by simp)
    | ok v =>
      rw [show tupleIndex (PyObj.mat B) (ci, cj, cs).1 (ci, cj, cs).2.1
        = .ok v from htup] at hfc
      have hfc2 : (Except.ok ((ci, cj, cs).2.2, v) : Except SubsErr (PExpr × PExpr))
          = .ok p := hfc
      simp only [Except.ok.injEq] at hfc2
      rw [← hfc2]
      exact ⟨hA, hnz, tupleIndex_mat_ok_inv htup⟩
  have hforward : ∀ i j s, mget? A i j = some s → s ≠ PExpr.num 0 →
      ∃ v, mget? B i j = some v ∧ (s, v) ∈ l0 := by
    intro i j s hA hnz
    obtain ⟨v, hv⟩ := sameShape_mget? hshape hA
    refine ⟨v, hv, ?_⟩
    refine rowMapE_mem_ok hl0 (mem_nonzeroCells_iff.mpr ⟨hA, hnz⟩) ?_
    simp [tupleIndex_mat_of_some hv]
  refine ⟨l0, hms2, rowMapE_ok_length hl0, hforward, hbackward, ?_⟩
  intro hsyms hnums hcons i j s hA hnz
  obtain ⟨nm, hnm⟩ : ∃ nm, s = PExpr.sym nm := by
    have := hsyms (i, j, s) (mem_nonzeroCells_iff.mpr ⟨hA, hnz⟩)
    cases s with
    | sym nm => exact ⟨nm, rfl⟩
    | num z => exact absurd this (by simp [PExpr.isSym])
  obtain ⟨v, hv, hmem⟩ := hforward i j s hA hnz
  obtain ⟨z, hz⟩ : ∃ z, v = PExpr.num z := by
    have := hnums (i, j, v) (mem_cellsIdx_iff.mpr hv)
    cases v with
    | sym nm2 => exact absurd this (by simp [PExpr.isNum])
    | num z => exact ⟨z, rfl⟩
  have happ : applySubsExpr l0 s = v := by
    rw [hnm]
    refine applySubsExpr_resolved (by rw [← hnm]; exact hmem) ?_ ?_ ⟨z, hz⟩
    · intro pv hpv hpv1
      obtain ⟨i2, j2, hA2, hnz2, hB2⟩ := hbackward pv hpv
      have hceq : mget? B i j = mget? B i2 j2 :=
        hcons (i, j, s) (mem_nonzeroCells_iff.mpr ⟨hA, hnz⟩)
          (i2, j2, pv.1) (mem_nonzeroCells_iff.mpr ⟨hA2, hnz2⟩)
          (by rw [hpv1, hnm])
      rw [hv, hB2] at hceq
      exact ((Option.some.injEq _ _).mp hceq).symm
    · intro pv hpv
      obtain ⟨i2, j2, hA2, hnz2, _⟩ := hbackward pv hpv
      have := hsyms (i2, j2, pv.1) (mem_nonzeroCells_iff.mpr ⟨hA2, hnz2⟩)
      cases hp : pv.1 with
      | sym nm2 => exact ⟨nm2, rfl⟩
      | num z2 => rw [hp] at this; exact absurd this (by simp [PExpr.isSym])
  show mget? (A.map (List.map (applySubsExpr l0))) i j = mget? B i j
  rw [mget?_map, hA, hv]
  simp [happ]

/-- C7 witness: a diagonal symbolic matrix with a numeric value matrix; the
flattened set has one entry per nonzero cell and substitution reproduces the
value at a nonzero position. -/
theorem claim_C7_flattener_roundtrip_witness :
    ∃ l, matrix_subs [.mat [[PExpr.sym "x", PExpr.num 0], [PExpr.num 0, PExpr.sym "y"]],
          .mat [[PExpr.num 3, PExpr.num 7], [PExpr.num 8, PExpr.num 4]]] = .ok l ∧
      l.length = 2 ∧
      mget? (applySubsMat l [[PExpr.sym "x", PExpr.num 0], [PExpr.num 0, PExpr.sym "y"]]) 0 0
        = mget? [[PExpr.num 3, PExpr.num 7], [PExpr.num 8, PExpr.num 4]] 0 0 := by
  obtain ⟨l, hok, hlen, hfwd, hbwd, hrt⟩ := claim_C7_flattener_roundtrip
    [[PExpr.sym "x", PExpr.num 0], [PExpr.num 0, PExpr.sym "y"]]
    [[PExpr.num 3, PExpr.num 7], [PExpr.num 8, PExpr.num 4]] (by decide)
  refine ⟨l, hok, by rw [hlen]; decide, ?_⟩
  exact hrt (by decide) (by decide) (by decide) 0 0 (PExpr.sym "x") (by decide) (by decide)

/-! Claim about `block_matrix`. -/

/-- C9 (code bug).  The contract (and the generic per-row tuple unpacking in
the source) is to assemble every compatible rectangular grid; but the
unpacked tuples are passed to `sp.Matrix.row_join` and `sp.Matrix.col_join`,
two-parameter methods `(self, other)`, so any block row with other than two
blocks — here a rectangular 2×3 grid of compatible 1×1 blocks — raises
`TypeError` instead of assembling.  The spec's 2×2 example, the one shape the
call pattern supports, does assemble to the expected 3×5 matrix with every
block at its offset. -/
theorem claim_C9_block_matrix_arity :
    block_matrix ([[[[1]], [[2]], [[3]]], [[[4]], [[5]], [[6]]]] : List (List (Mat Int)))
      = .error .typeError ∧
    block_matrix
      ([[[[1, 2, 3], [4, 5, 6]], [[7, 8], [9, 10]]], [[[11, 12, 13]], [[14, 15]]]]
        : List (List (Mat Int)))
      = .ok [[1, 2, 3, 7, 8], [4, 5, 6, 9, 10], [11, 12, 13, 14, 15]] := by
  exact ⟨by decide, by decide⟩

/-! Decimal naming and the explicit-matrix builder. -/

theorem digitChar_inj_lt : ∀ d < 10, ∀ e < 10, Nat.digitChar d = Nat.digitChar e → d = e := by
  decide

theorem map_digitChar_inj :
    ∀ {l1 l2 : List Nat}, (∀ d ∈ l1, d < 10) → (∀ d ∈ l2, d < 10) →
      l1.map Nat.digitChar = l2.map Nat.digitChar → l1 = l2 := by
  intro l1
  induction l1 with
  | nil =>
    intro l2 _ _ h
    cases l2 with
    | nil => rfl
    | cons e es => simp at h
  | cons d ds ih =>
    intro l2 h1 h2 h
    cases l2 with
    | nil => simp at h
    | cons e es =>
      simp only [List.map_cons, List.cons.injEq] at h
      have hd : d = e := digitChar_inj_lt d (h1 d (List.mem_cons_self _ _))
        e (h2 e (List.mem_cons_self _ _)) h.1
      rw [hd, ih (fun x hx => h1 x (List.mem_cons_of_mem _ hx))
        (fun x hx => h2 x (List.mem_cons_of_mem _ hx)) h.2]

theorem natDecimal_ne_zero_str {b : Nat} (hb : b ≠ 0) : natDecimal b ≠ "0" := by
  intro h
  simp only [natDecimal, if_neg hb] at h
  have hdata : ((Nat.digits 10 b).reverse.map Nat.digitChar) = ['0'] :=
    congrArg String.data h
  have hlen : (Nat.digits 10 b).length = 1 := by
    have := congrArg List.length hdata
    simpa using this
  obtain ⟨d, hd⟩ : ∃ d, Nat.digits 10 b = [d] := by
    cases hdig : Nat.digits 10 b with
    | nil => rw [hdig] at hlen; simp at hlen
    | cons d ds =>
      rw [hdig] at hlen
      simp only [List.length_cons] at hlen
      have : ds = [] := List.eq_nil_of_length_eq_zero (by omega)
      exact ⟨d, by rw [this]⟩
  rw [hd] at hdata
  simp only [List.reverse_cons, List.reverse_nil, List.nil_append, List.map_cons,
    List.map_nil, List.cons.injEq, and_true] at hdata
  have hdlt : d < 10 := Nat.digits_lt_base (by omega) (by rw [hd]; exact List.mem_cons_self _ _)
  have hd0 : d = 0 := by
    have : Nat.digitChar d = Nat.digitChar 0 := by simpa using hdata
    exact digitChar_inj_lt d hdlt 0 (by omega) this
  have : b = 0 := by
    have hof := Nat.ofDigits_digits 10 b
    rw [hd, hd0] at hof
    simpa [Nat.ofDigits_singleton] using hof.symm
  exact hb this

theorem natDecimal_injective : ∀ {a b : Nat}, natDecimal a = natDecimal b → a = b := by
  intro a b h
  by_cases ha : a = 0
  · by_cases hb : b = 0
    · rw [ha, hb]
    · subst ha
      exact absurd h.symm (natDecimal_ne_zero_str hb)
  · by_cases hb : b = 0
    · subst hb
      exact absurd h (natDecimal_ne_zero_str ha)
    · simp only [natDecimal, if_neg ha, if_neg hb] at h
      have hdata : ((Nat.digits 10 a).reverse.map Nat.digitChar)
          = ((Nat.digits 10 b).reverse.map Nat.digitChar) := congrArg String.data h
      have hrev : (Nat.digits 10 a).reverse = (Nat.digits 10 b).reverse :=
        map_digitChar_inj
          (fun d hd => Nat.digits_lt_base (by omega) (List.mem_reverse.mp hd))
          (fun d hd => Nat.digits_lt_base (by omega) (List.mem_reverse.mp hd)) hdata
      exact Nat.digits_inj_iff.mp (List.reverse_inj.mp hrev)

theorem symName_diag_inj {base : String} {a b : Nat}
    (h : symName base a a = symName base b b) : a = b := by
  have hd : (base ++ "_").data ++ ((natDecimal a).data ++ (natDecimal a).data)
      = (base ++ "_").data ++ ((natDecimal b).data ++ (natDecimal b).data) := by
    have h2 := congrArg String.data h
    simpa [symName, String.data_append, List.append_assoc] using h2
  have h2 : (natDecimal a).data ++ (natDecimal a).data
      = (natDecimal b).data ++ (natDecimal b).data := List.append_cancel_left hd
  have hlen : (natDecimal a).data.length = (natDecimal b).data.length := by
    have h3 := congrArg List.length h2
    simp only [List.length_append] at h3
    omega
  have hab : (natDecimal a).data = (natDecimal b).data := by
    have h4 := congrArg (List.take (natDecimal a).data.length) h2
    rw [List.take_left' rfl, List.take_left' hlen.symm] at h4
    exact h4
  exact natDecimal_injective (String.ext hab)

theorem mget?_range_map {γ : Type} (f : Nat → Nat → γ) (n : Nat) {i j : Nat}
    (hi : i < n) (hj : j < n) :
    mget? ((List.range n).map (fun i => (List.range n).map (fun j => f i j))) i j
      = some (f i j) := by
  simp [mget?, List.getElem?_map, List.getElem?_range hi, List.getElem?_range hj]

/-! Claim about `construct_explicit_matrix`. -/

/-- C8.  With the diagonal flag set the builder requires `n = m` (raising the
invalid-shape error when `n ≠ m` and diagonal or symmetric was requested);
the diagonal flag takes precedence over `symmetric` (the result does not
depend on it); and on success the result is an n×n matrix whose off-diagonal
entries are exactly zero and whose diagonal entries are pairwise distinct
fresh symbols named `name_{i+1}{i+1}`. -/
theorem claim_C8_diagonal_builder :
    ∀ (name : String) (n m : Nat) (symmetric : Bool),
      (n ≠ m → construct_explicit_matrix name n m symmetric true = .error .invalidShape) ∧
      (n ≠ m → construct_explicit_matrix name n m true false = .error .invalidShape) ∧
      construct_explicit_matrix name n m symmetric true
        = construct_explicit_matrix name n m false true ∧
      (n = m → ∃ M, construct_explicit_matrix name n m symmetric true = .ok M ∧
        M.length = n ∧ (∀ row ∈ M, row.length = n) ∧
        (∀ i j, i < n → j < n → i ≠ j → mget? M i j = some (PExpr.num 0)) ∧
        (∀ i, i < n → mget? M i i = some (PExpr.sym (symName name (i + 1) (i + 1)))) ∧
        (∀ i k, i < n → k < n → i ≠ k → mget? M i i ≠ mget? M k k)) := by
  intro name n m symmetric
  refine ⟨?_, ?_, ?_, ?_⟩
  · intro hnm
    simp [construct_explicit_matrix, hnm]
  · intro hnm
    simp [construct_explicit_matrix, hnm]
  · by_cases hnm : n = m
    · subst hnm
      simp [construct_explicit_matrix]
    · simp [construct_explicit_matrix, hnm]
  · intro hnm
    subst hnm
    refine ⟨(List.range n).map (fun i => (List.range n).map (fun j =>
      if i = j then PExpr.sym (symName name (i + 1) (i + 1)) else PExpr.num 0)), ?_,
      by simp, ?_, ?_, ?_, ?_⟩
    · simp [construct_explicit_matrix]
    · intro row hrow
      obtain ⟨i, _, rfl⟩ := List.mem_map.mp hrow
      simp
    · intro i j hi hj hij
      rw [mget?_range_map (fun i j =>
        if i = j then PExpr.sym (symName name (i + 1) (i + 1)) else PExpr.num 0) n hi hj]
      rw [if_neg hij]
    · intro i hi
      rw [mget?_range_map (fun i j =>
        if i = j then PExpr.sym (symName name (i + 1) (i + 1)) else PExpr.num 0) n hi hi]
      rw [if_pos rfl]
    · intro i k hi hk hik
      rw [mget?_range_map (fun i j =>
        if i = j then PExpr.sym (symName name (i + 1) (i + 1)) else PExpr.num 0) n hi hi]
      rw [mget?_range_map (fun i j =>
        if i = j then PExpr.sym (symName name (i + 1) (i + 1)) else PExpr.num 0) n hk hk]
      rw [if_pos rfl, if_pos rfl]
      intro hcontra
      simp only [Option.some.injEq, PExpr.sym.injEq] at hcontra
      have := symName_diag_inj hcontra
      omega

/-- C8 witness: a 2×3 diagonal request fails; a 2×2 diagonal request yields a
matrix with zero off the diagonal and two distinct diagonal symbols. -/
theorem claim_C8_diagonal_builder_witness :
    construct_explicit_matrix "a" 2 3 false true = .error .invalidShape ∧
    ∃ M, construct_explicit_matrix "a" 2 2 false true = .ok M ∧
      mget? M 0 1 = some (PExpr.num 0) ∧ mget? M 0 0 ≠ mget? M 1 1 := by
  constructor
  · exact (claim_C8_diagonal_builder "a" 2 3 false).1 (by decide)
  · obtain ⟨M, hok, _, _, hoff, _, hdist⟩ :=
      (claim_C8_diagonal_builder "a" 2 2 false).2.2.2 rfl
    exact ⟨M, hok, hoff 0 1 (by decide) (by decide) (by decide),
      hdist 0 1 (by decide) (by decide) (by decide)⟩

end Simupy
